import Mathlib

/-!
Shallow embedding of the img2caps pipeline scripts, and proofs of the frozen
claims about them.

Each definition below is translated from one of the Python source files under
`python_scripts/`; the originating file and function are named in the doc
comment of each definition.  Machine reals (Python floats) are modelled as
exact rationals `ℚ`; Python strings are modelled as `String` / `List Char`.
-/

namespace Img2Caps

/-- Character class `[0-9]` (the ASCII subset of the regex class `\d`). -/
def isDigitChar (c : Char) : Bool :=
  48 ≤ c.toNat && c.toNat ≤ 57

/-- Character class `[A-Z]` of the code regexes. -/
def isUpperChar (c : Char) : Bool :=
  65 ≤ c.toNat && c.toNat ≤ 90

/-! Decimal formatting helpers, modelling Python's `int(s)` on digit strings
and `f"{n:03d}"` / `"{:02x}".format(n)` formatting. -/

/-- Value of a (nonempty, all-digit) character run, as computed by Python's
`int(digits)`: base-10 left fold. -/
def digitsVal (ds : List Char) : ℕ :=
  ds.foldl (fun a c => 10 * a + (c.toNat - 48)) 0

/-- Fuel-driven digit expansion (structural recursion so that the kernel can
evaluate it; `natToDecimal` supplies enough fuel). -/
def natToDecimalAux : ℕ → ℕ → List Char
  | 0, _ => []
  | fuel + 1, n =>
      if n < 10 then [Nat.digitChar n]
      else natToDecimalAux fuel (n / 10) ++ [Nat.digitChar (n % 10)]

/-- Decimal representation of a natural number, as produced by Python's
`str`/`format` of a nonnegative `int` (no sign, no leading zeros, one digit
minimum). -/
def natToDecimal (n : ℕ) : List Char :=
  natToDecimalAux (n + 1) n

/-- Python `f"{n:03d}"` for a nonnegative `n`: decimal digits, zero-padded on
the left to a minimum width of 3. -/
def pyFormat03d (n : ℕ) : List Char :=
  let d := natToDecimal n
  List.replicate (3 - d.length) '0' ++ d

/-! Model of `python_scripts/fix_color_registry_codes.py`. -/

/-- Match of `CODE_RE = re.compile(r"^([A-Z]{2})(\d+)$")` against a string:
exactly two ASCII uppercase letters followed by one or more ASCII digits,
anchored at both ends.  Returns the two capture groups on success. -/
def matchCodeRe : List Char → Option (Char × Char × List Char)
  | a :: b :: ds =>
      if isUpperChar a && isUpperChar b && !ds.isEmpty && ds.all isDigitChar then
        some (a, b, ds)
      else none
  | _ => none

/-- Match of `I_MIS_OCR_RE = re.compile(r"^([A-Z]{2})I(\d+)$")`: two ASCII
uppercase letters, a literal `I`, then one or more digits. -/
def matchIMisRe : List Char → Option (Char × Char × List Char)
  | a :: b :: i :: ds =>
      if isUpperChar a && isUpperChar b && (i == 'I') && !ds.isEmpty &&
          ds.all isDigitChar then
        some (a, b, ds)
      else none
  | _ => none

/-- Step 2 of `normalize_code`: if `CODE_RE` matches, pad the digit run via
`f"{prefix}{int(digits):03d}"` unless it already has at least 3 digits;
otherwise leave the code unchanged. -/
def padStep (cs : List Char) : List Char :=
  match matchCodeRe cs with
  | none => cs
  | some (a, b, ds) =>
      if 3 ≤ ds.length then cs
      else a :: b :: pyFormat03d (digitsVal ds)

/-- Core of `normalize_code` on character lists: step 1 rewrites a mis-OCR
`XX I ddd` to `XX 1 ddd`, step 2 zero-pads the digit run to 3 digits. -/
def normalizeCore (cs : List Char) : List Char :=
  padStep
    (match matchIMisRe cs with
     | some (a, b, ds) => a :: b :: '1' :: ds
     | none => cs)

/-- The function `normalize_code` of `fix_color_registry_codes.py`. -/
def normalize_code (s : String) : String :=
  String.mk (normalizeCore s.data)

/-! Registries as association lists.  A Python `dict` read from JSON is
modelled as a `List (String × V)` in iteration (insertion) order. -/

/-- Python `d[k] = v` on a dict: replace in place if the key is present,
append otherwise. -/
def dictInsert {V : Type} (d : List (String × V)) (k : String) (v : V) :
    List (String × V) :=
  if d.any (fun p => p.1 == k) then
    d.map (fun p => if p.1 == k then (k, v) else p)
  else d ++ [(k, v)]

/-- Python `d[k]` lookup (first — and, for a dict, only — binding). -/
def assocFind {V : Type} (d : List (String × V)) (k : String) : Option V :=
  (d.find? (fun p => p.1 == k)).map Prod.snd

/-- Loop body of `main` in `fix_color_registry_codes.py`: walk the registry
items in order; drop an item (recording a duplicate warning pairing the raw
code with its normalization) when its normalized code is already mapped,
record a rename in `changed` when the code changed, and store the entry under
the normalized code otherwise.  Returns `(remapped, changed, warnings)`. -/
def processCodesGo {V : Type} (remapped : List (String × V))
    (changed warnings : List (String × String)) :
    List (String × V) →
      List (String × V) × List (String × String) × List (String × String)
  | [] => (remapped, changed, warnings)
  | (code, entry) :: rest =>
      let newCode := normalize_code code
      if remapped.any (fun p => p.1 == newCode) then
        processCodesGo remapped changed (warnings ++ [(code, newCode)]) rest
      else if newCode ≠ code then
        processCodesGo (remapped ++ [(newCode, entry)])
          (changed ++ [(code, newCode)]) warnings rest
      else
        processCodesGo (remapped ++ [(newCode, entry)]) changed warnings rest

/-- The registry-normalization pass of `main` in
`fix_color_registry_codes.py` (the entry values are passed through opaquely,
hence the type parameter `V`). -/
def fix_registry_codes {V : Type} (registry : List (String × V)) :
    List (String × V) × List (String × String) × List (String × String) :=
  processCodesGo [] [] [] registry

/-! Model of `python_scripts/create_hex_color_registry.py`. -/

/-- Fuel-driven hexadecimal digit expansion (Lean's `Nat.digitChar` produces
the lowercase letters `a`-`f` for 10-15, as Python `"{:x}"` does). -/
def natToHexAux : ℕ → ℕ → List Char
  | 0, _ => []
  | fuel + 1, n =>
      if n < 16 then [Nat.digitChar n]
      else natToHexAux fuel (n / 16) ++ [Nat.digitChar (n % 16)]

/-- Lowercase hexadecimal representation of a natural number. -/
def natToHex (n : ℕ) : List Char :=
  natToHexAux (n + 1) n

/-- Python `"{:02x}".format(n)`: lowercase hex, zero-padded on the left to a
minimum width of 2. -/
def pyFormat02x (n : ℕ) : List Char :=
  let d := natToHex n
  List.replicate (2 - d.length) '0' ++ d

/-- The function `rgb_to_hex` of `create_hex_color_registry.py`:
`'#{:02x}{:02x}{:02x}'.format(rgb[0], rgb[1], rgb[2])`. -/
def rgb_to_hex (r g b : ℕ) : String :=
  String.mk ('#' :: (pyFormat02x r ++ pyFormat02x g ++ pyFormat02x b))

/-- The function `create_hex_color_registry` of the same file: each registry
entry is modelled by its `rgb` field (the only field the function reads);
entries whose rgb list does not have exactly 3 components are skipped, the
rest are stored as `hex_registry[hex_code] = color_code`. -/
def create_hex_color_registry (registry : List (String × List ℕ)) :
    List (String × String) :=
  registry.foldl
    (fun acc p =>
      match p.2 with
      | [r, g, b] => dictInsert acc (rgb_to_hex r g b) p.1
      | _ => acc)
    []

/-! Model of `sample_color` in `python_scripts/build_color_registry.py`
(the region computation; the pixel statistics over the cropped region are
outside the embedded fragment). -/

/-- Region bounds computed by `sample_color` for an image of the given size,
returned as the `(left, top, right, bottom)` tuple passed to `image.crop`:
`left = min(70, width - 1)`, `right = min(170, width)`,
`top = min(25, height - 1)`, `bottom = min(80, height)`. -/
def sample_region (width height : ℤ) : ℤ × ℤ × ℤ × ℤ :=
  (min 70 (width - 1), min 25 (height - 1), min 170 width, min 80 height)

/-! Model of `python_scripts/generate_design_from_image.py`.  RGB triples are
integer vectors. -/

/-- An RGB triple. -/
abbrev RGBI := ℤ × ℤ × ℤ

/-- Squared Euclidean distance in RGB space.  The source's `rgb_distance`
computes `np.linalg.norm(c1 - c2)`; on integer vectors the square root is
strictly monotone and exact comparisons of norms coincide with comparisons
of the squared distances, so the embedding compares squares. -/
def rgb_distance_sq (c1 c2 : RGBI) : ℤ :=
  (c1.1 - c2.1) ^ 2 + (c1.2.1 - c2.2.1) ^ 2 + (c1.2.2 - c2.2.2) ^ 2

/-- Loop of `nearest_yuzu_color`: `best = None`, `best_dist = inf`, replace
on strictly smaller distance. -/
def nearestGo (rgb : RGBI) :
    List (String × RGBI) → Option (String × ℤ) → Option (String × ℤ)
  | [], best => best
  | (code, entry) :: rest, best =>
      let d := rgb_distance_sq rgb entry
      match best with
      | none => nearestGo rgb rest (some (code, d))
      | some (bc, bd) =>
          if d < bd then nearestGo rgb rest (some (code, d))
          else nearestGo rgb rest (some (bc, bd))

/-- The function `nearest_yuzu_color` of `generate_design_from_image.py`.
The trailing `assert best_code is not None` is modelled by the `Option`. -/
def nearest_yuzu_color (rgb : RGBI) (palette : List (String × RGBI)) :
    Option String :=
  (nearestGo rgb palette none).map Prod.fst

/-! Model of `python_scripts/build_key_position_registry.py`.  Python floats
are embedded as exact rationals. -/

/-- Exceptions that the embedded fragment of the parser can raise. -/
inductive PyErr where
  | valueError
  | indexError
deriving DecidableEq

/-- Decidable equality for `Except`, so that concrete parser runs can be
checked by `decide`. -/
instance {ε α : Type} [DecidableEq ε] [DecidableEq α] :
    DecidableEq (Except ε α) := fun a b =>
  match a, b with
  | Except.error e, Except.error f =>
      match decEq e f with
      | isTrue h => isTrue (by rw [h])
      | isFalse h => isFalse (by intro hc; cases hc; exact h rfl)
  | Except.error _, Except.ok _ => isFalse (by intro hc; cases hc)
  | Except.ok _, Except.error _ => isFalse (by intro hc; cases hc)
  | Except.ok x, Except.ok y =>
      match decEq x y with
      | isTrue h => isTrue (by rw [h])
      | isFalse h => isFalse (by intro hc; cases hc; exact h rfl)

/-- Antisymmetry of `≤` on `ℚ`, packaged for `List.min?_eq_some_iff`. -/
instance : Std.Antisymm ((· : ℚ) ≤ ·) :=
  ⟨fun h1 h2 => le_antisymm h1 h2⟩

/-- ASCII whitespace stripped by Python's `float` before parsing. -/
def isWsChar (c : Char) : Bool :=
  c.toNat == 32 || (9 ≤ c.toNat && c.toNat ≤ 13)

/-- Strip leading and trailing whitespace. -/
def stripWs (cs : List Char) : List Char :=
  ((cs.dropWhile isWsChar).reverse.dropWhile isWsChar).reverse

/-- Consume an optional leading sign; `true` means negative. -/
def parseSign : List Char → Bool × List Char
  | '-' :: r => (true, r)
  | '+' :: r => (false, r)
  | cs => (false, cs)

/-- Split a maximal run of leading ASCII digits from the rest. -/
def digitsRun (cs : List Char) : List Char × List Char :=
  (cs.takeWhile isDigitChar, cs.dropWhile isDigitChar)

/-- Parse the exponent tail accepted by Python `float` (empty, or
`[eE][+-]?digits` consuming the whole remainder). -/
def parseExpPart : List Char → Option ℤ
  | [] => some 0
  | e :: rest =>
      if e == 'e' || e == 'E' then
        let (neg, r) := parseSign rest
        let (ds, rest2) := digitsRun r
        if ds.isEmpty || !rest2.isEmpty then none
        else some (if neg then -(digitsVal ds : ℤ) else (digitsVal ds : ℤ))
      else none

/-- Power of ten with integer exponent, as an exact rational. -/
def pow10 (e : ℤ) : ℚ :=
  if 0 ≤ e then ((10 : ℚ) ^ e.toNat) else 1 / ((10 : ℚ) ^ (-e).toNat)

/-- Python `float(s)` on the decimal/exponent literal grammar
(`[+-]? (digits [. digits*] | . digits+) ([eE] [+-]? digits+)?` with
surrounding whitespace).  The `inf`/`nan` words and `_` digit separators are
not modelled; they do not occur in layout coordinate attributes. -/
def pyFloat? (s : String) : Option ℚ :=
  let cs := stripWs s.data
  let (neg, cs1) := parseSign cs
  let (ips, cs2) := digitsRun cs1
  match cs2 with
  | '.' :: cs3 =>
      let (fps, cs4) := digitsRun cs3
      if ips.isEmpty && fps.isEmpty then none
      else
        (parseExpPart cs4).map fun e =>
          let mag : ℚ :=
            (digitsVal ips : ℚ) + (digitsVal fps : ℚ) / ((10 : ℚ) ^ fps.length)
          let v := mag * pow10 e
          if neg then -v else v
  | _ =>
      if ips.isEmpty then none
      else
        (parseExpPart cs2).map fun e =>
          let v := (digitsVal ips : ℚ) * pow10 e
          if neg then -v else v

/-- Attempt of the regex `-?\d+\.\d+|-?\d+` at the start of `cs` (leftmost
alternative first, greedy digit runs). -/
def matchNumericAt (cs : List Char) : Option (List Char) :=
  let (sgn, rest) :=
    match cs with
    | '-' :: r => (['-'], r)
    | _ => (([] : List Char), cs)
  let (ds, rest2) := digitsRun rest
  if ds.isEmpty then none
  else
    match rest2 with
    | '.' :: rest3 =>
        let (fs, _) := digitsRun rest3
        if fs.isEmpty then some (sgn ++ ds) else some (sgn ++ ds ++ '.' :: fs)
    | _ => some (sgn ++ ds)

/-- First match of `re.findall(r"-?\d+\.\d+|-?\d+", s)`: scan start positions
left to right. -/
def findFirstNumeric : List Char → Option (List Char)
  | [] => none
  | c :: rest =>
      match matchNumericAt (c :: rest) with
      | some tok => some tok
      | none => findFirstNumeric rest

/-- Python `float(s)` with the `ValueError` made explicit. -/
def pyFloatE (s : String) : Except PyErr ℚ :=
  match pyFloat? s with
  | some q => Except.ok q
  | none => Except.error PyErr.valueError

/-- Coordinate extraction in `parse_key_layout`:
`float(elem.get("data-key-x", 0))` with, on `ValueError`, the fallback
`float(re.findall(r"-?\d+\.\d+|-?\d+", elem.get("data-key-x", "0"))[0])`.
An absent attribute yields the integer default `0`.  Indexing `[0]` into an
empty `findall` result raises an uncaught `IndexError`.  A matched token is
always a valid float literal, so the `getD` default is never used. -/
def getCoord (attr : Option String) : Except PyErr ℚ :=
  match attr with
  | none => Except.ok 0
  | some s =>
      match pyFloat? s with
      | some q => Except.ok q
      | none =>
          match findFirstNumeric s.data with
          | some tok => Except.ok ((pyFloat? (String.mk tok)).getD 0)
          | none => Except.error PyErr.indexError

/-- Floor of a rational (denominators are positive, so flooring the numerator
by the denominator is exact). -/
def ratFloor (q : ℚ) : ℤ :=
  q.num.fdiv q.den

/-- Banker's rounding of a rational to an integer, the rounding mode of
Python's built-in `round`. -/
def pyRoundHalfEven (q : ℚ) : ℤ :=
  let f := ratFloor q
  let r := q - f
  if r < 1 / 2 then f
  else if 1 / 2 < r then f + 1
  else if f % 2 = 0 then f else f + 1

/-- Python `round(q, 4)`, modelled as ideal half-even rounding at 4 decimal
places on exact rationals. -/
def round4 (q : ℚ) : ℚ :=
  (pyRoundHalfEven (q * 10000) : ℚ) / 10000

/-- One keyboard unit, `UNIT_MM = 19.05` millimetres. -/
def UNIT_MM : ℚ := 1905 / 100

/-- A raw element of `key_layout.html` carrying a `data-key-id` attribute:
the optional `data-key-x` / `data-key-y` / `data-key-labelid` attribute
strings and the optional nested `<rect>` with its `width`/`height` attribute
strings. -/
structure RawKeyElem where
  keyId : String
  dataKeyX : Option String
  dataKeyY : Option String
  labelId : Option String
  rect : Option (String × String)

/-- One entry of the `raw` list built by the first pass of
`parse_key_layout`. -/
structure RawRec where
  keyId : String
  xU : ℚ
  yU : ℚ
  widthU : ℚ
  heightU : ℚ
  label : Option String

/-- A value of the key-position registry produced by `parse_key_layout`. -/
structure GeoEntry where
  label : Option String
  x_u : ℚ
  y_u : ℚ
  width_u : ℚ
  height_u : ℚ
  left_u : ℚ
  top_u : ℚ
  right_u : ℚ
  bottom_u : ℚ
deriving DecidableEq

/-- Running minimum against Python's `float("inf")` seed (`none` stands for
the untouched infinity). -/
def minWith : Option ℚ → ℚ → ℚ
  | none, x => x
  | some m, x => min m x

/-- First pass of `parse_key_layout`: parse each element's coordinates
(which updates the running `min_x`/`min_y` even for elements later skipped),
skip elements with no nested `rect`, convert rect sizes to units, and
collect the raw records.  Unparseable rect sizes raise `ValueError`;
coordinates with no numeric token raise `IndexError`; either aborts the
whole batch, as in the source. -/
def firstPass : List RawKeyElem → Except PyErr (List RawRec × Option ℚ × Option ℚ)
  | [] => Except.ok ([], none, none)
  | e :: rest =>
      match getCoord e.dataKeyX with
      | Except.error err => Except.error err
      | Except.ok xU =>
          match getCoord e.dataKeyY with
          | Except.error err => Except.error err
          | Except.ok yU =>
              match e.rect with
              | none =>
                  match firstPass rest with
                  | Except.error err => Except.error err
                  | Except.ok (rs, mx, my) =>
                      Except.ok (rs, some (minWith mx xU), some (minWith my yU))
              | some (w, h) =>
                  match pyFloatE w with
                  | Except.error err => Except.error err
                  | Except.ok widthMm =>
                      match pyFloatE h with
                      | Except.error err => Except.error err
                      | Except.ok heightMm =>
                          match firstPass rest with
                          | Except.error err => Except.error err
                          | Except.ok (rs, mx, my) =>
                              Except.ok
                                (⟨e.keyId, xU, yU, round4 (widthMm / UNIT_MM),
                                    round4 (heightMm / UNIT_MM), e.labelId⟩ :: rs,
                                  some (minWith mx xU), some (minWith my yU))

/-- The registry entry built from a raw record in the second pass: offset by
the recorded minima so that the top-left key starts at `(0, 0)`. -/
def entryOf (mx my : ℚ) (r : RawRec) : GeoEntry :=
  { label := r.label
    x_u := r.xU
    y_u := r.yU
    width_u := r.widthU
    height_u := r.heightU
    left_u := round4 (r.xU - mx)
    top_u := round4 (r.yU - my)
    right_u := round4 (r.xU - mx + r.widthU)
    bottom_u := round4 (r.yU - my + r.heightU) }

/-- Second pass of `parse_key_layout`: offset every record by the recorded
minima and build the registry dict. -/
def secondPass (mx my : ℚ) (raws : List RawRec) : List (String × GeoEntry) :=
  raws.foldl (fun reg r => dictInsert reg r.keyId (entryOf mx my r)) []

/-- The function `parse_key_layout` of `build_key_position_registry.py`.
When `mx`/`my` are `none` no element was seen, `raws` is empty and the
defaults are never read (Python's untouched `float("inf")` state). -/
def parse_key_layout (elems : List RawKeyElem) :
    Except PyErr (List (String × GeoEntry)) :=
  match firstPass elems with
  | Except.error err => Except.error err
  | Except.ok (raws, mx, my) =>
      Except.ok (secondPass (mx.getD 0) (my.getD 0) raws)

/-! Remaining part of `generate_design_from_image.py`: bounding boxes and the
`customizedColor` map. -/

/-- Python `int(q)`: truncation toward zero. -/
def pyInt (q : ℚ) : ℤ :=
  q.num.tdiv q.den

/-- The function `build_keyboard_bbox_map`: `max` over the registry's
`right_u` (a `ValueError` on an empty registry, hence `none`), the
units→pixels factor, and one truncated pixel box per key.  A zero total
width raises `ZeroDivisionError` in the source, hence `none`. -/
def build_keyboard_bbox_map (imageWidth : ℕ)
    (registry : List (String × GeoEntry)) :
    Option (List (String × (ℤ × ℤ × ℤ × ℤ))) :=
  match (registry.map fun p => p.2.right_u).max? with
  | none => none
  | some totalWidthU =>
      if totalWidthU = 0 then none
      else
        let pxPerU : ℚ := (imageWidth : ℚ) / totalWidthU
        some (registry.map fun p =>
          (p.1,
            (pyInt (p.2.left_u * pxPerU), pyInt (p.2.top_u * pxPerU),
             pyInt (p.2.right_u * pxPerU), pyInt (p.2.bottom_u * pxPerU))))

/-- The `for key_id, bbox in bbox_map.items()` loop of `main`: for every key,
look up the nearest palette code of its dominant colour; a failed
`assert best_code is not None` (empty palette) aborts, modelled by `none`. -/
def collectColors (palette : List (String × RGBI))
    (dominantColor : ℤ × ℤ × ℤ × ℤ → RGBI) :
    List (String × (ℤ × ℤ × ℤ × ℤ)) → Option (List (String × String))
  | [] => some []
  | (keyId, bbox) :: rest =>
      match nearest_yuzu_color (dominantColor bbox) palette with
      | none => none
      | some code =>
          match collectColors palette dominantColor rest with
          | none => none
          | some others => some ((keyId, code) :: others)

/-- Steps 3-4 of `main` in `generate_design_from_image.py`: build the bbox
map, then for every key crop the box, extract its dominant colour and map it
to the nearest palette code, collecting `customized_colors`.
`dominantColor` abstracts `dominant_color(img.crop(bbox))` (Pillow
median-cut quantisation, outside the embeddable fragment); the theorems hold
for every such function. -/
def generate_customized_colors (imageWidth : ℕ)
    (registry : List (String × GeoEntry)) (palette : List (String × RGBI))
    (dominantColor : ℤ × ℤ × ℤ × ℤ → RGBI) :
    Option (List (String × String)) :=
  match build_keyboard_bbox_map imageWidth registry with
  | none => none
  | some bboxes => collectColors palette dominantColor bboxes

example : normalize_code "GR27" = "GR027" := by decide
example : normalize_code "GR027" = "GR027" := by decide
example : normalize_code "ABI5" = "AB015" := by decide
example : normalize_code "A1" = "A1" := by decide
example : normalize_code "ABC1" = "ABC1" := by decide
example : normalize_code "hello" = "hello" := by decide

/-! Structural lemmas about decimal formatting. -/

theorem natToDecimalAux_irrel :
    ∀ f₁ : ℕ, ∀ n f₂ : ℕ, n < f₁ → n < f₂ →
      natToDecimalAux f₁ n = natToDecimalAux f₂ n := by
  intro f₁
  induction f₁ with
  | zero => intro n f₂ h₁ _; omega
  | succ g ih =>
      intro n f₂ h₁ h₂
      cases f₂ with
      | zero => omega
      | succ h =>
          simp only [natToDecimalAux]
          by_cases hn : n < 10
          · simp [hn]
          · have hdiv : n / 10 < n := Nat.div_lt_self (by omega) (by omega)
            simp only [hn, if_false]
            rw [ih (n / 10) h (by omega) (by omega)]

theorem natToDecimal_eq (n : ℕ) :
    natToDecimal n =
      if n < 10 then [Nat.digitChar n]
      else natToDecimal (n / 10) ++ [Nat.digitChar (n % 10)] := by
  by_cases hn : n < 10
  · simp [natToDecimal, natToDecimalAux, hn]
  · have hdiv : n / 10 < n := Nat.div_lt_self (by omega) (by omega)
    have h1 : natToDecimal n =
        natToDecimalAux n (n / 10) ++ [Nat.digitChar (n % 10)] := by
      simp only [natToDecimal, natToDecimalAux]
      rw [if_neg hn]
    rw [h1, if_neg hn,
      natToDecimalAux_irrel n (n / 10) (n / 10 + 1) (by omega) (by omega)]
    rfl

theorem digitChar_isDigit (m : ℕ) (h : m < 10) :
    isDigitChar (Nat.digitChar m) = true := by
  interval_cases m <;> decide

theorem natToDecimal_ne_nil (n : ℕ) : natToDecimal n ≠ [] := by
  rw [natToDecimal_eq]
  split <;> simp

theorem natToDecimal_all_digits (n : ℕ) :
    ∀ c ∈ natToDecimal n, isDigitChar c = true := by
  induction n using Nat.strong_induction_on with
  | _ n ih =>
      rw [natToDecimal_eq]
      by_cases hn : n < 10
      · simp only [hn, if_true, List.mem_singleton]
        rintro c rfl
        exact digitChar_isDigit n hn
      · have hdiv : n / 10 < n := Nat.div_lt_self (by omega) (by omega)
        simp only [hn, if_false, List.mem_append, List.mem_singleton]
        rintro c (hc | rfl)
        · exact ih (n / 10) hdiv c hc
        · exact digitChar_isDigit _ (Nat.mod_lt _ (by omega))

theorem pyFormat03d_all_digits (n : ℕ) :
    (pyFormat03d n).all isDigitChar = true := by
  simp only [pyFormat03d, List.all_eq_true, List.mem_append]
  rintro c (hc | hc)
  · have : c = '0' := List.eq_of_mem_replicate hc
    subst this; decide
  · exact natToDecimal_all_digits n c hc

theorem pyFormat03d_len (n : ℕ) : 3 ≤ (pyFormat03d n).length := by
  simp only [pyFormat03d, List.length_append, List.length_replicate]
  omega

theorem pyFormat03d_ne_nil (n : ℕ) : pyFormat03d n ≠ [] := by
  have := pyFormat03d_len n
  intro h
  rw [h] at this
  simp at this

/-! Inversion and fixpoint lemmas for `normalize_code`. -/

theorem ne_nil_of_isEmpty_eq_false {α : Type} {l : List α}
    (h : l.isEmpty = false) : l ≠ [] := by
  cases l <;> simp_all

theorem matchCodeRe_some {cs : List Char} {a b : Char} {ds : List Char}
    (h : matchCodeRe cs = some (a, b, ds)) :
    cs = a :: b :: ds ∧ isUpperChar a = true ∧ isUpperChar b = true ∧
      ds ≠ [] ∧ ds.all isDigitChar = true := by
  match cs with
  | [] => simp [matchCodeRe] at h
  | [x] => simp [matchCodeRe] at h
  | x :: y :: es =>
      simp only [matchCodeRe] at h
      split_ifs at h with hcond
      simp only [Option.some.injEq, Prod.mk.injEq] at h
      obtain ⟨rfl, rfl, rfl⟩ := h
      simp only [Bool.and_eq_true, Bool.not_eq_true'] at hcond
      exact ⟨rfl, hcond.1.1.1, hcond.1.1.2,
        ne_nil_of_isEmpty_eq_false hcond.1.2, hcond.2⟩

theorem matchIMisRe_some {cs : List Char} {a b : Char} {ds : List Char}
    (h : matchIMisRe cs = some (a, b, ds)) :
    cs = a :: b :: 'I' :: ds ∧ isUpperChar a = true ∧ isUpperChar b = true ∧
      ds ≠ [] ∧ ds.all isDigitChar = true := by
  match cs with
  | [] => simp [matchIMisRe] at h
  | [x] => simp [matchIMisRe] at h
  | [x, y] => simp [matchIMisRe] at h
  | x :: y :: i :: es =>
      simp only [matchIMisRe] at h
      split_ifs at h with hcond
      simp only [Option.some.injEq, Prod.mk.injEq] at h
      obtain ⟨rfl, rfl, rfl⟩ := h
      simp only [Bool.and_eq_true, Bool.not_eq_true', beq_iff_eq] at hcond
      obtain ⟨⟨⟨⟨hx, hy⟩, hi⟩, hne⟩, hall⟩ := hcond
      subst hi
      exact ⟨rfl, hx, hy, ne_nil_of_isEmpty_eq_false hne, hall⟩

theorem isDigitChar_bounds {c : Char} (h : isDigitChar c = true) :
    48 ≤ c.toNat ∧ c.toNat ≤ 57 := by
  simpa [isDigitChar, Bool.and_eq_true, decide_eq_true_eq] using h

theorem digitChar_roundtrip {c : Char} (h : isDigitChar c = true) :
    Nat.digitChar (c.toNat - 48) = c := by
  obtain ⟨h1, h2⟩ := isDigitChar_bounds h
  have hcases : c.toNat = 48 ∨ c.toNat = 49 ∨ c.toNat = 50 ∨ c.toNat = 51 ∨
      c.toNat = 52 ∨ c.toNat = 53 ∨ c.toNat = 54 ∨ c.toNat = 55 ∨
      c.toNat = 56 ∨ c.toNat = 57 := by omega
  rcases hcases with h3|h3|h3|h3|h3|h3|h3|h3|h3|h3 <;>
    (conv_rhs => rw [← Char.ofNat_toNat c]) <;> rw [h3] <;> decide

theorem natToDecimal_one_digit (n : ℕ) (h : n < 10) :
    natToDecimal n = [Nat.digitChar n] := by
  rw [natToDecimal_eq]
  simp [h]

theorem natToDecimal_two_digit (n : ℕ) (h1 : 10 ≤ n) (h2 : n < 100) :
    natToDecimal n = [Nat.digitChar (n / 10), Nat.digitChar (n % 10)] := by
  rw [natToDecimal_eq, if_neg (by omega), natToDecimal_one_digit (n / 10) (by omega)]
  rfl

theorem pyFormat03d_digitsVal (ds : List Char) (hall : ds.all isDigitChar = true)
    (hlen1 : 1 ≤ ds.length) (hlen2 : ds.length ≤ 2) :
    pyFormat03d (digitsVal ds) = List.replicate (3 - ds.length) '0' ++ ds := by
  match ds with
  | [c] =>
      have hc : isDigitChar c = true := by simpa using hall
      obtain ⟨hb1, hb2⟩ := isDigitChar_bounds hc
      have hv : digitsVal [c] = c.toNat - 48 := by simp [digitsVal]
      have hone : natToDecimal (digitsVal [c]) = [c] := by
        rw [hv, natToDecimal_one_digit (c.toNat - 48) (by omega),
          digitChar_roundtrip hc]
      simp only [pyFormat03d, hone]
  | [c1, c2] =>
      have hc : isDigitChar c1 = true ∧ isDigitChar c2 = true := by
        simpa [Bool.and_eq_true] using hall
      obtain ⟨hb1, hb2⟩ := isDigitChar_bounds hc.1
      obtain ⟨hb3, hb4⟩ := isDigitChar_bounds hc.2
      have hv : digitsVal [c1, c2] = 10 * (c1.toNat - 48) + (c2.toNat - 48) := by
        simp [digitsVal]
      by_cases h0 : c1.toNat - 48 = 0
      · have hc10 : c1 = '0' := by
          have := digitChar_roundtrip hc.1
          rw [h0] at this
          exact this.symm
        have hv' : digitsVal [c1, c2] = c2.toNat - 48 := by rw [hv, h0]; ring
        have hone : natToDecimal (digitsVal [c1, c2]) = [c2] := by
          rw [hv', natToDecimal_one_digit (c2.toNat - 48) (by omega),
            digitChar_roundtrip hc.2]
        simp only [pyFormat03d, hone]
        rw [hc10]
        rfl
      · have hv10 : 10 ≤ digitsVal [c1, c2] := by rw [hv]; omega
        have hv100 : digitsVal [c1, c2] < 100 := by rw [hv]; omega
        have hdiv : digitsVal [c1, c2] / 10 = c1.toNat - 48 := by rw [hv]; omega
        have hmod : digitsVal [c1, c2] % 10 = c2.toNat - 48 := by rw [hv]; omega
        have htwo : natToDecimal (digitsVal [c1, c2]) = [c1, c2] := by
          rw [natToDecimal_two_digit _ hv10 hv100, hdiv, hmod,
            digitChar_roundtrip hc.1, digitChar_roundtrip hc.2]
        simp only [pyFormat03d, htwo]

theorem normalizeCore_two_letter (a b : Char) (ds : List Char)
    (ha : isUpperChar a = true) (hb : isUpperChar b = true)
    (hne : ds ≠ []) (hall : ds.all isDigitChar = true) :
    normalizeCore (a :: b :: ds) =
      if 3 ≤ ds.length then a :: b :: ds
      else a :: b :: pyFormat03d (digitsVal ds) := by
  obtain ⟨e, es, rfl⟩ : ∃ e es, ds = e :: es := by
    cases ds with
    | nil => exact absurd rfl hne
    | cons e es => exact ⟨e, es, rfl⟩
  have he : isDigitChar e = true ∧ es.all isDigitChar = true := by
    simpa [Bool.and_eq_true] using hall
  have heI : (e == 'I') = false := by
    refine beq_eq_false_iff_ne.mpr ?_
    intro h
    subst h
    exact absurd he.1 (by decide)
  have h1 : matchIMisRe (a :: b :: e :: es) = none := by
    simp [matchIMisRe, heI]
  have h2 : matchCodeRe (a :: b :: e :: es) = some (a, b, e :: es) := by
    simp [matchCodeRe, ha, hb, hall]
  simp only [normalizeCore, h1, padStep, h2]

theorem normalizeCore_canonical (a b : Char) (ds : List Char)
    (ha : isUpperChar a = true) (hb : isUpperChar b = true)
    (hall : ds.all isDigitChar = true) (hlen : 3 ≤ ds.length) :
    normalizeCore (a :: b :: ds) = a :: b :: ds := by
  have hne : ds ≠ [] := by
    intro h
    rw [h] at hlen
    simp at hlen
  rw [normalizeCore_two_letter a b ds ha hb hne hall, if_pos hlen]

theorem normalizeCore_shape (cs : List Char) :
    normalizeCore cs = cs ∨
      ∃ a b es, normalizeCore cs = a :: b :: es ∧ isUpperChar a = true ∧
        isUpperChar b = true ∧ es.all isDigitChar = true ∧ 3 ≤ es.length := by
  cases hmi : matchIMisRe cs with
  | some t =>
      obtain ⟨a, b, ds⟩ := t
      obtain ⟨rfl, ha, hb, hne, hall⟩ := matchIMisRe_some hmi
      right
      have hall1 : ('1' :: ds).all isDigitChar = true := by
        rw [List.all_cons, hall]
        decide
      have hmc : matchCodeRe (a :: b :: '1' :: ds) = some (a, b, '1' :: ds) := by
        simp [matchCodeRe, hall1]
        exact ⟨ha, hb⟩
      have hcore : normalizeCore (a :: b :: 'I' :: ds) = padStep (a :: b :: '1' :: ds) := by
        simp only [normalizeCore, hmi]
      by_cases hl : 3 ≤ ('1' :: ds).length
      · refine ⟨a, b, '1' :: ds, ?_, ha, hb, hall1, hl⟩
        rw [hcore]
        simp only [padStep, hmc]
        rw [if_pos hl]
      · refine ⟨a, b, pyFormat03d (digitsVal ('1' :: ds)), ?_, ha, hb,
          pyFormat03d_all_digits _, pyFormat03d_len _⟩
        rw [hcore]
        simp only [padStep, hmc]
        rw [if_neg hl]
  | none =>
      cases hmc : matchCodeRe cs with
      | none =>
          left
          simp only [normalizeCore, hmi, padStep, hmc]
      | some t =>
          obtain ⟨a, b, ds⟩ := t
          obtain ⟨rfl, ha, hb, hne, hall⟩ := matchCodeRe_some hmc
          by_cases hl : 3 ≤ ds.length
          · left
            simp only [normalizeCore, hmi, padStep, hmc]
            rw [if_pos hl]
          · right
            refine ⟨a, b, pyFormat03d (digitsVal ds), ?_, ha, hb,
              pyFormat03d_all_digits _, pyFormat03d_len _⟩
            simp only [normalizeCore, hmi, padStep, hmc]
            rw [if_neg hl]

theorem normalizeCore_idem (cs : List Char) :
    normalizeCore (normalizeCore cs) = normalizeCore cs := by
  rcases normalizeCore_shape cs with h | ⟨a, b, es, h, ha, hb, hall, hlen⟩
  · rw [h]
    exact h
  · rw [h]
    exact normalizeCore_canonical a b es ha hb hall hlen

/-- C2: code normalization is idempotent: for every string `s` (including
already-canonical codes and strings unrelated to the code family),
`normalize_code (normalize_code s) = normalize_code s`. -/
theorem normalize_code_idempotent (s : String) :
    normalize_code (normalize_code s) = normalize_code s :=
  congrArg String.mk (normalizeCore_idem s.data)

/-- C7 counterexample: `CODE_RE` requires exactly two uppercase letters, so a
one-letter code `"A1"` and a three-letter code `"ABC7"` are returned
unchanged instead of being zero-padded as the claim states. -/
theorem normalize_code_short_prefix_counterexample :
    normalize_code "A1" = "A1" ∧ normalize_code "A1" ≠ "A001" ∧
      normalize_code "ABC7" = "ABC7" ∧ normalize_code "ABC7" ≠ "ABC007" := by
  decide

/-- C7 (amended): for every code consisting of exactly two uppercase letters
followed by one or more digits, `normalize_code` left-pads the digit run with
zeros to exactly 3 digits; codes already holding 3 or more digits are left
unchanged (then `3 - ds.length = 0` and the replicate is empty). -/
theorem normalize_code_pads (a b : Char) (ds : List Char)
    (ha : isUpperChar a = true) (hb : isUpperChar b = true)
    (hne : ds ≠ []) (hall : ds.all isDigitChar = true) :
    normalize_code (String.mk (a :: b :: ds)) =
      String.mk (a :: b :: (List.replicate (3 - ds.length) '0' ++ ds)) := by
  apply congrArg String.mk
  show normalizeCore (a :: b :: ds) = _
  rw [normalizeCore_two_letter a b ds ha hb hne hall]
  by_cases hl : 3 ≤ ds.length
  · rw [if_pos hl]
    have h0 : 3 - ds.length = 0 := by omega
    rw [h0]
    simp
  · rw [if_neg hl]
    have h1 : 1 ≤ ds.length := List.length_pos.2 hne
    rw [pyFormat03d_digitsVal ds hall h1 (by omega)]

/-- Witness for `normalize_code_pads`: at `"GR27"` the padding produces
`"GR027"`. -/
theorem normalize_code_pads_witness :
    normalize_code (String.mk ['G', 'R', '2', '7']) =
      String.mk ('G' :: 'R' ::
        (List.replicate (3 - (['2', '7'] : List Char).length) '0' ++ ['2', '7'])) :=
  normalize_code_pads 'G' 'R' ['2', '7'] (by decide) (by decide) (by decide)
    (by decide)

/-- C8: for every image with `width ≥ 1` and `height ≥ 1`, the sampling
region `(left, top, right, bottom)` computed by `sample_color` satisfies
`0 ≤ left < right ≤ width` and `0 ≤ top < bottom ≤ height`, so the region is
at least one pixel on every edge even for undersized images. -/
theorem sample_region_bounds (width height : ℤ)
    (hw : 1 ≤ width) (hh : 1 ≤ height) :
    0 ≤ (sample_region width height).1 ∧
      (sample_region width height).1 < (sample_region width height).2.2.1 ∧
      (sample_region width height).2.2.1 ≤ width ∧
      0 ≤ (sample_region width height).2.1 ∧
      (sample_region width height).2.1 < (sample_region width height).2.2.2 ∧
      (sample_region width height).2.2.2 ≤ height := by
  simp only [sample_region]
  refine ⟨?_, ?_, ?_, ?_, ?_, ?_⟩ <;> (simp only [min_def]; split_ifs <;> omega)

/-- Witness for `sample_region_bounds` at a 1×1 image: the region degenerates
to the single pixel `(0, 0, 1, 1)` and all bounds hold. -/
theorem sample_region_bounds_witness :
    0 ≤ (sample_region 1 1).1 ∧
      (sample_region 1 1).1 < (sample_region 1 1).2.2.1 ∧
      (sample_region 1 1).2.2.1 ≤ 1 ∧
      0 ≤ (sample_region 1 1).2.1 ∧
      (sample_region 1 1).2.1 < (sample_region 1 1).2.2.2 ∧
      (sample_region 1 1).2.2.2 ≤ 1 :=
  sample_region_bounds 1 1 (by decide) (by decide)

/-- C9: the claim (and the docstring of `rgb_to_hex`) says stored keys are
6-hex-digit lowercase strings with no leading `#`, but the format string
starts with `'#'`: the registry built from the single entry
`("A001", [0,0,0])` stores the key `"#000000"`, which begins with `#` and is
not the 6-character key the claim describes. -/
theorem create_hex_registry_stores_hash :
    create_hex_color_registry [("A001", [0, 0, 0])] = [("#000000", "A001")] ∧
      (rgb_to_hex 0 0 0).data.head? = some '#' ∧
      rgb_to_hex 0 0 0 ≠ "000000" ∧ (rgb_to_hex 0 0 0).data.length = 7 := by
  decide

/-! Lemmas about the registry-normalization pass (`fix_registry_codes`). -/

theorem assocFind_nil {V : Type} (k : String) :
    assocFind ([] : List (String × V)) k = none := rfl

theorem assocFind_append_right {V : Type} (d : List (String × V)) (x : String × V)
    (k : String) (h : assocFind d k = none) :
    assocFind (d ++ [x]) k = assocFind [x] k := by
  simp only [assocFind, List.find?_append]
  simp only [assocFind] at h
  cases hf : List.find? (fun p => p.1 == k) d with
  | none => simp [Option.orElse]
  | some v => rw [hf] at h; simp at h

theorem assocFind_append_left {V : Type} (d e : List (String × V)) (k : String)
    (v : V) (h : assocFind d k = some v) :
    assocFind (d ++ e) k = some v := by
  simp only [assocFind, List.find?_append]
  simp only [assocFind, Option.map_eq_some'] at h
  obtain ⟨p, hp, hv⟩ := h
  rw [hp]
  simp [Option.orElse, hv]

theorem assocFind_isSome_of_any {V : Type} (d : List (String × V)) (k : String)
    (h : d.any (fun p => p.1 == k) = true) : (assocFind d k).isSome = true := by
  simp only [List.any_eq_true] at h
  obtain ⟨p, hp, hpk⟩ := h
  cases hf : List.find? (fun p => p.1 == k) d with
  | none =>
      rw [List.find?_eq_none] at hf
      exact absurd hpk (by simpa using hf p hp)
  | some q => simp [assocFind, hf]

theorem assocFind_none_of_not_any {V : Type} (d : List (String × V)) (k : String)
    (h : d.any (fun p => p.1 == k) = false) : assocFind d k = none := by
  simp only [List.any_eq_false] at h
  simp only [assocFind, Option.map_eq_none']
  rw [List.find?_eq_none]
  intro p hp
  simpa using h p hp

theorem processCodesGo_find_hit {V : Type} :
    ∀ (items rm : List (String × V)) (ch wn : List (String × String))
      (k : String) (v : V), assocFind rm k = some v →
      assocFind (processCodesGo rm ch wn items).1 k = some v := by
  intro items
  induction items with
  | nil => intro rm ch wn k v h; exact h
  | cons hd tl ih =>
      obtain ⟨code, entry⟩ := hd
      intro rm ch wn k v h
      simp only [processCodesGo]
      split_ifs with h1 h2
      · exact ih rm ch _ k v h
      · exact ih _ _ _ k v (assocFind_append_left rm _ k v h)
      · exact ih _ _ _ k v (assocFind_append_left rm _ k v h)

theorem assocFind_singleton {V : Type} (k k' : String) (v : V) :
    assocFind [(k, v)] k' = if (k == k') = true then some v else none := by
  by_cases h : (k == k') = true <;> simp [assocFind, List.find?, h]

theorem processCodesGo_find_miss {V : Type} :
    ∀ (items rm : List (String × V)) (ch wn : List (String × String))
      (k : String), assocFind rm k = none →
      assocFind (processCodesGo rm ch wn items).1 k =
        (items.find? (fun p => normalize_code p.1 == k)).map Prod.snd := by
  intro items
  induction items with
  | nil => intro rm ch wn k h; exact h
  | cons hd tl ih =>
      obtain ⟨code, entry⟩ := hd
      intro rm ch wn k h
      simp only [processCodesGo]
      by_cases hk : (normalize_code code == k) = true
      · have hkk : normalize_code code = k := eq_of_beq hk
        have hsing : assocFind (rm ++ [(normalize_code code, entry)]) k = some entry := by
          rw [← hkk] at h
          rw [← hkk, assocFind_append_right rm _ _ h, assocFind_singleton]
          simp
        rw [List.find?_cons_of_pos _ (by simpa using hk)]
        simp only [Option.map_some']
        split_ifs with h1 h2
        · exfalso
          have := assocFind_isSome_of_any rm (normalize_code code) h1
          rw [hkk, h] at this
          simp at this
        · exact processCodesGo_find_hit tl _ _ _ k entry hsing
        · exact processCodesGo_find_hit tl _ _ _ k entry hsing
      · have hk' : (normalize_code code == k) = false := by simpa using hk
        have hsing : assocFind (rm ++ [(normalize_code code, entry)]) k = none := by
          rw [assocFind_append_right rm _ k h, assocFind_singleton]
          simp [hk']
        rw [List.find?_cons_of_neg _ (by simpa using hk)]
        split_ifs with h1 h2
        · exact ih rm ch _ k h
        · exact ih _ _ _ k hsing
        · exact ih _ _ _ k hsing

/-- C5: when normalizing a full registry, of two raw codes that normalize to
the same canonical code only the first in iteration order is kept, and a
duplicate warning is emitted.  First conjunct: looking up any canonical code
in the produced registry yields the value of the *first* input item whose
code normalizes to it.  Second conjunct: the concrete registry
`[("GR27", v1), ("GR027", v2)]` collapses to the single entry
`("GR027", v1)` keeping the first value, records the rename
`GR27 → GR027`, and emits exactly one duplicate warning (for the dropped
`"GR027"` item). -/
theorem fix_registry_first_wins :
    (∀ (V : Type) (items : List (String × V)) (k : String),
        assocFind (fix_registry_codes items).1 k =
          (items.find? (fun p => normalize_code p.1 == k)).map Prod.snd) ∧
      (∀ (V : Type) (v1 v2 : V),
        fix_registry_codes [("GR27", v1), ("GR027", v2)] =
          ([("GR027", v1)], [("GR27", "GR027")], [("GR027", "GR027")])) := by
  constructor
  · intro V items k
    exact processCodesGo_find_miss items [] [] [] k rfl
  · intro V v1 v2
    rfl

theorem processCodesGo_values {V : Type} :
    ∀ (items rm : List (String × V)) (ch wn : List (String × String))
      (p : String × V), p ∈ (processCodesGo rm ch wn items).1 →
      p ∈ rm ∨ ∃ q ∈ items, q.2 = p.2 := by
  intro items
  induction items with
  | nil => intro rm ch wn p hp; exact Or.inl hp
  | cons hd tl ih =>
      obtain ⟨code, entry⟩ := hd
      intro rm ch wn p hp
      simp only [processCodesGo] at hp
      split_ifs at hp with h1 h2
      · rcases ih rm ch _ p hp with h | ⟨q, hq, hval⟩
        · exact Or.inl h
        · exact Or.inr ⟨q, List.mem_cons_of_mem _ hq, hval⟩
      · rcases ih _ _ _ p hp with h | ⟨q, hq, hval⟩
        · rcases List.mem_append.1 h with h' | h'
          · exact Or.inl h'
          · refine Or.inr ⟨(code, entry), List.mem_cons_self _ _, ?_⟩
            simp only [List.mem_singleton] at h'
            rw [h']
        · exact Or.inr ⟨q, List.mem_cons_of_mem _ hq, hval⟩
      · rcases ih _ _ _ p hp with h | ⟨q, hq, hval⟩
        · rcases List.mem_append.1 h with h' | h'
          · exact Or.inl h'
          · refine Or.inr ⟨(code, entry), List.mem_cons_self _ _, ?_⟩
            simp only [List.mem_singleton] at h'
            rw [h']
        · exact Or.inr ⟨q, List.mem_cons_of_mem _ hq, hval⟩

/-- C10: registry code-normalization never alters entry values: every value
in the output registry is the value of some entry of the input registry
(only keys are renamed or entries dropped, never values modified). -/
theorem fix_registry_values_preserved {V : Type} (items : List (String × V))
    (p : String × V) (hp : p ∈ (fix_registry_codes items).1) :
    ∃ q ∈ items, q.2 = p.2 := by
  rcases processCodesGo_values items [] [] [] p hp with h | h
  · exact absurd h (by simp)
  · exact h

/-- Witness for `fix_registry_values_preserved`: the surviving entry
`("GR027", 42)` of the processed registry `[("GR27", 42)]` carries the value
of the input entry. -/
theorem fix_registry_values_preserved_witness :
    ∃ q ∈ [("GR27", (42 : ℕ))], q.2 = (("GR027", (42 : ℕ)) : String × ℕ).2 :=
  fix_registry_values_preserved [("GR27", 42)] ("GR027", 42) (by decide)

/-! Lemmas about `nearest_yuzu_color`.  Key codes are compared in the
lexicographic (code-point) order of their character lists, which is Python's
string sort order. -/

theorem nearestGo_spec (rgb : RGBI) :
    ∀ (l : List (String × RGBI)) (bc : String) (bd : ℤ),
      ∃ c d, nearestGo rgb l (some (bc, bd)) = some (c, d) ∧ d ≤ bd ∧
        (∀ e ∈ l, d ≤ rgb_distance_sq rgb e.2) ∧
        ((c = bc ∧ d = bd) ∨
          ∃ l1 em l2, l = l1 ++ em :: l2 ∧ c = em.1 ∧
            d = rgb_distance_sq rgb em.2 ∧ d < bd ∧
            ∀ e' ∈ l1, d < rgb_distance_sq rgb e'.2) := by
  intro l
  induction l with
  | nil =>
      intro bc bd
      exact ⟨bc, bd, rfl, le_refl _, by simp, Or.inl ⟨rfl, rfl⟩⟩
  | cons hd tl ih =>
      obtain ⟨c0, e0⟩ := hd
      intro bc bd
      simp only [nearestGo]
      by_cases hlt : rgb_distance_sq rgb e0 < bd
      · rw [if_pos hlt]
        obtain ⟨c, d, heq, hdle, hall, hcase⟩ := ih c0 (rgb_distance_sq rgb e0)
        refine ⟨c, d, heq, le_of_lt (lt_of_le_of_lt hdle hlt), ?_, ?_⟩
        · intro e he
          rcases List.mem_cons.1 he with rfl | he'
          · exact hdle
          · exact hall e he'
        · rcases hcase with ⟨hceq, hdeq⟩ | ⟨l1, em, l2, hl, hc, hd2, hdlt, hl1⟩
          · exact Or.inr ⟨[], (c0, e0), tl, rfl, hceq, hdeq, hdeq ▸ hlt, by simp⟩
          · refine Or.inr ⟨(c0, e0) :: l1, em, l2, by rw [hl, List.cons_append],
              hc, hd2, lt_trans hdlt hlt, ?_⟩
            intro e' he'
            rcases List.mem_cons.1 he' with rfl | he''
            · exact hdlt
            · exact hl1 e' he''
      · rw [if_neg hlt]
        push_neg at hlt
        obtain ⟨c, d, heq, hdle, hall, hcase⟩ := ih bc bd
        refine ⟨c, d, heq, hdle, ?_, ?_⟩
        · intro e he
          rcases List.mem_cons.1 he with rfl | he'
          · exact le_trans hdle hlt
          · exact hall e he'
        · rcases hcase with h | ⟨l1, em, l2, hl, hc, hd2, hdlt, hl1⟩
          · exact Or.inl h
          · refine Or.inr ⟨(c0, e0) :: l1, em, l2, by rw [hl, List.cons_append],
              hc, hd2, hdlt, ?_⟩
            intro e' he'
            rcases List.mem_cons.1 he' with rfl | he''
            · exact lt_of_lt_of_le hdlt hlt
            · exact hl1 e' he''

/-- C3: `nearest_yuzu_color` returns the code of a palette entry of minimum
squared Euclidean distance to the query, and with the palette in sorted code
order (Python's lexicographic string order, phrased on the character lists)
an exactly equidistant alternative entry always has a strictly larger code —
the result is the first code in sorted order.  Second conjunct: the claim's
concrete tie `palette = A001 ↦ (0,0,0), A002 ↦ (10,10,10)`, query `(5,5,5)`,
resolves to `"A001"`. -/
theorem nearest_code_spec :
    (∀ (rgb : RGBI) (palette : List (String × RGBI)),
        palette ≠ [] →
        List.Pairwise (fun p q : String × RGBI => p.1.data < q.1.data) palette →
        ∃ e ∈ palette, nearest_yuzu_color rgb palette = some e.1 ∧
          (∀ e' ∈ palette,
            rgb_distance_sq rgb e.2 ≤ rgb_distance_sq rgb e'.2) ∧
          (∀ e' ∈ palette,
            rgb_distance_sq rgb e'.2 = rgb_distance_sq rgb e.2 →
              e' = e ∨ e.1.data < e'.1.data)) ∧
      nearest_yuzu_color (5, 5, 5)
          [("A001", (0, 0, 0)), ("A002", (10, 10, 10))] = some "A001" := by
  constructor
  · intro rgb palette hne hs
    obtain ⟨⟨c0, e0⟩, rest, rfl⟩ : ∃ hd tl, palette = hd :: tl := by
      cases palette with
      | nil => exact absurd rfl hne
      | cons hd tl => exact ⟨hd, tl, rfl⟩
    obtain ⟨c, d, heq, hdle, hall, hcase⟩ :=
      nearestGo_spec rgb rest c0 (rgb_distance_sq rgb e0)
    have hgo : nearest_yuzu_color rgb ((c0, e0) :: rest) = some c := by
      simp only [nearest_yuzu_color, nearestGo, heq, Option.map_some']
    rcases hcase with ⟨hceq, hdeq⟩ | ⟨l1, em, l2, hl, rfl, hd2, hdlt, hl1⟩
    · rw [hceq] at hgo
      rw [hdeq] at hall
      refine ⟨(c0, e0), List.mem_cons_self _ _, hgo, ?_, ?_⟩
      · intro e' he'
        rcases List.mem_cons.1 he' with rfl | he''
        · exact le_refl _
        · exact hall e' he''
      · intro e' he' _
        rcases List.mem_cons.1 he' with rfl | he''
        · exact Or.inl rfl
        · exact Or.inr ((List.pairwise_cons.1 hs).1 e' he'')
    · subst hl
      subst hd2
      refine ⟨em, List.mem_cons_of_mem _
        (List.mem_append.2 (Or.inr (List.mem_cons_self _ _))), hgo, ?_, ?_⟩
      · intro e' he'
        rcases List.mem_cons.1 he' with rfl | he''
        · exact le_of_lt hdlt
        · exact hall e' he''
      · intro e' he' hde
        rcases List.mem_cons.1 he' with rfl | he''
        · exact absurd hde (ne_of_gt hdlt)
        · rcases List.mem_append.1 he'' with h1 | h2
          · exact absurd hde (ne_of_gt (hl1 e' h1))
          · rcases List.mem_cons.1 h2 with rfl | h3
            · exact Or.inl rfl
            · refine Or.inr ?_
              have hs' := (List.pairwise_cons.1 hs).2
              have hmid := (List.pairwise_append.1 hs').2.1
              exact (List.pairwise_cons.1 hmid).1 e' h3
  · decide

/-- Witness for `nearest_code_spec`: its general component applied to the
claim's concrete tie palette, hypotheses discharged by computation. -/
theorem nearest_code_spec_witness :
    ∃ e ∈ ([("A001", (0, 0, 0)), ("A002", (10, 10, 10))] :
        List (String × RGBI)),
      nearest_yuzu_color (5, 5, 5)
          [("A001", (0, 0, 0)), ("A002", (10, 10, 10))] = some e.1 ∧
        (∀ e' ∈ ([("A001", (0, 0, 0)), ("A002", (10, 10, 10))] :
            List (String × RGBI)),
          rgb_distance_sq (5, 5, 5) e.2 ≤ rgb_distance_sq (5, 5, 5) e'.2) ∧
        (∀ e' ∈ ([("A001", (0, 0, 0)), ("A002", (10, 10, 10))] :
            List (String × RGBI)),
          rgb_distance_sq (5, 5, 5) e'.2 = rgb_distance_sq (5, 5, 5) e.2 →
            e' = e ∨ e.1.data < e'.1.data) :=
  nearest_code_spec.1 (5, 5, 5) [("A001", (0, 0, 0)), ("A002", (10, 10, 10))]
    (by decide) (by decide)

/-! Lemmas about `generate_customized_colors`. -/

theorem collectColors_keys (palette : List (String × RGBI))
    (dominantColor : ℤ × ℤ × ℤ × ℤ → RGBI) :
    ∀ (l : List (String × (ℤ × ℤ × ℤ × ℤ))) (colors : List (String × String)),
      collectColors palette dominantColor l = some colors →
      colors.map Prod.fst = l.map Prod.fst := by
  intro l
  induction l with
  | nil =>
      intro colors h
      simp only [collectColors, Option.some.injEq] at h
      subst h
      rfl
  | cons hd tl ih =>
      obtain ⟨kid, bbox⟩ := hd
      intro colors h
      simp only [collectColors] at h
      cases hn : nearest_yuzu_color (dominantColor bbox) palette with
      | none => simp [hn] at h
      | some code =>
          simp only [hn] at h
          cases hc : collectColors palette dominantColor tl with
          | none => simp [hc] at h
          | some others =>
              simp only [hc, Option.some.injEq] at h
              subst h
              simp only [List.map_cons]
              rw [ih others hc]

theorem build_bbox_keys (imageWidth : ℕ) (registry : List (String × GeoEntry))
    (bboxes : List (String × (ℤ × ℤ × ℤ × ℤ)))
    (h : build_keyboard_bbox_map imageWidth registry = some bboxes) :
    bboxes.map Prod.fst = registry.map Prod.fst := by
  simp only [build_keyboard_bbox_map] at h
  cases hm : (registry.map fun p => p.2.right_u).max? with
  | none => simp [hm] at h
  | some tw =>
      simp only [hm] at h
      split_ifs at h with h0
      rw [← Option.some.inj h]
      simp [List.map_map, Function.comp]

/-- C4: for every geometry registry, every palette and every dominant-colour
extractor, whenever the generator produces a design colour map it contains
exactly one entry per key id of the registry — the same key list (hence no
extra keys, no omissions) and exactly N entries for a registry of N keys. -/
theorem generate_covers_all_keys (imageWidth : ℕ)
    (registry : List (String × GeoEntry)) (palette : List (String × RGBI))
    (dominantColor : ℤ × ℤ × ℤ × ℤ → RGBI) (colors : List (String × String))
    (h : generate_customized_colors imageWidth registry palette dominantColor =
      some colors) :
    colors.map Prod.fst = registry.map Prod.fst ∧
      colors.length = registry.length := by
  simp only [generate_customized_colors] at h
  cases hb : build_keyboard_bbox_map imageWidth registry with
  | none => simp [hb] at h
  | some bboxes =>
      simp only [hb] at h
      have h1 := collectColors_keys palette dominantColor bboxes colors h
      have h2 := build_bbox_keys imageWidth registry bboxes hb
      refine ⟨h1.trans h2, ?_⟩
      have h3 : (colors.map Prod.fst).length = (registry.map Prod.fst).length := by
        rw [h1, h2]
      simpa using h3

-- Witness for `generate_covers_all_keys`: a one-key registry, a one-entry
-- palette and a constant extractor generate the one-entry colour map
-- whose key list matches the registry's (the irreducible rational kernels
-- are unsealed so the hypothesis evaluates).
unseal Rat.mul Rat.add Rat.sub Rat.inv in
theorem generate_covers_all_keys_witness :
    ([("K1", "A001")] : List (String × String)).map Prod.fst =
        ([("K1", (⟨none, 0, 0, 1, 1, 0, 0, 1, 1⟩ : GeoEntry))]).map Prod.fst ∧
      ([("K1", "A001")] : List (String × String)).length =
        [("K1", (⟨none, 0, 0, 1, 1, 0, 0, 1, 1⟩ : GeoEntry))].length :=
  generate_covers_all_keys 100 [("K1", ⟨none, 0, 0, 1, 1, 0, 0, 1, 1⟩)]
    [("A001", (0, 0, 0))] (fun _ => (0, 0, 0)) [("K1", "A001")] (by decide)

/-! The geometry parser: claims C1 and C6. -/

unseal Rat.mul Rat.add Rat.sub Rat.inv in
/-- C6: the claim says a record whose positional attribute holds no numeric
token is skipped and the batch continues, but the uncaught
`re.findall(...)[0]` indexing raises `IndexError` and aborts the whole
registry build.  First conjunct: a batch whose first record carries
`data-key-x="abc"` aborts with `IndexError` although a later valid record
follows.  Remaining conjuncts: the `ValueError` fallback itself, in
isolation, extracts a numeric token when one exists (`"[5.5]"` → `5.5`) and
aborts when none does. -/
theorem parse_key_layout_aborts_on_nonnumeric :
    parse_key_layout
        [⟨"K1", some "abc", some "0", none, some ("19.05", "19.05")⟩,
         ⟨"K2", some "5", some "5", none, some ("19.05", "19.05")⟩] =
      Except.error PyErr.indexError ∧
      getCoord (some "abc") = Except.error PyErr.indexError ∧
      getCoord (some "[5.5]") = Except.ok (11 / 2) := by
  decide

-- Evaluation lemma: rounding fixes zero (the rational kernels are unsealed
-- so the kernel can compute).
unseal Rat.mul Rat.add Rat.sub Rat.inv in
theorem round4_zero : round4 0 = 0 := by decide

theorem pyRoundHalfEven_nonneg (q : ℚ) (h : 0 ≤ q) : 0 ≤ pyRoundHalfEven q := by
  have hf : 0 ≤ ratFloor q := by
    simp only [ratFloor]
    exact Int.fdiv_nonneg (Rat.num_nonneg.2 h) (by positivity)
  simp only [pyRoundHalfEven]
  split_ifs <;> omega

theorem round4_nonneg (q : ℚ) (h : 0 ≤ q) : 0 ≤ round4 q := by
  have h1 : 0 ≤ q * 10000 := by positivity
  have h2 := pyRoundHalfEven_nonneg _ h1
  simp only [round4]
  positivity

theorem rat_min?_eq_some_zero {l : List ℚ} (h0 : (0 : ℚ) ∈ l)
    (hall : ∀ b ∈ l, (0 : ℚ) ≤ b) : l.min? = some 0 :=
  (List.min?_eq_some_iff (fun a => le_refl a) min_choice
    (fun _ _ _ => le_min_iff)).2 ⟨h0, hall⟩

theorem firstPass_no_skip :
    ∀ (elems : List RawKeyElem) (raws : List RawRec) (mx my : Option ℚ),
      (∀ e ∈ elems, e.rect ≠ none) →
      firstPass elems = Except.ok (raws, mx, my) →
      raws.map RawRec.keyId = elems.map RawKeyElem.keyId ∧
        (raws = [] ∨
          ∃ m₁ m₂, mx = some m₁ ∧ my = some m₂ ∧
            (∀ r ∈ raws, m₁ ≤ r.xU ∧ m₂ ≤ r.yU) ∧
            (∃ r ∈ raws, r.xU = m₁) ∧ (∃ r ∈ raws, r.yU = m₂)) := by
  intro elems
  induction elems with
  | nil =>
      intro raws mx my _ h
      simp only [firstPass, Except.ok.injEq, Prod.mk.injEq] at h
      obtain ⟨h1, h2, h3⟩ := h
      subst h1
      subst h2
      subst h3
      exact ⟨rfl, Or.inl rfl⟩
  | cons e rest ih =>
      intro raws mx my hrect h
      simp only [firstPass] at h
      cases hx : getCoord e.dataKeyX with
      | error err => simp [hx] at h
      | ok xU =>
          simp only [hx] at h
          cases hy : getCoord e.dataKeyY with
          | error err => simp [hy] at h
          | ok yU =>
              simp only [hy] at h
              obtain ⟨⟨w, hgt⟩, hre⟩ : ∃ p, e.rect = some p := by
                cases hre : e.rect with
                | none => exact absurd hre (hrect e (List.mem_cons_self _ _))
                | some p => exact ⟨p, rfl⟩
              simp only [hre] at h
              cases hw : pyFloatE w with
              | error err => simp [hw] at h
              | ok widthMm =>
                  simp only [hw] at h
                  cases hh : pyFloatE hgt with
                  | error err => simp [hh] at h
                  | ok heightMm =>
                      simp only [hh] at h
                      cases hfp : firstPass rest with
                      | error err => simp [hfp] at h
                      | ok t =>
                          obtain ⟨rs, mx', my'⟩ := t
                          simp only [hfp, Except.ok.injEq, Prod.mk.injEq] at h
                          obtain ⟨h1, h2, h3⟩ := h
                          subst h1
                          subst h2
                          subst h3
                          obtain ⟨hkeys, hminrest⟩ := ih rs mx' my'
                            (fun e' he' => hrect e' (List.mem_cons_of_mem _ he')) hfp
                          refine ⟨by simp [hkeys], Or.inr ?_⟩
                          rcases hminrest with hrsnil | ⟨m₁, m₂, hmx, hmy, hbound, hatt1, hatt2⟩
                          · subst hrsnil
                            have hrest_nil : rest = [] := by
                              cases rest with
                              | nil => rfl
                              | cons a b => simp at hkeys
                            subst hrest_nil
                            simp only [firstPass, Except.ok.injEq, Prod.mk.injEq] at hfp
                            obtain ⟨-, hmx', hmy'⟩ := hfp
                            subst hmx'
                            subst hmy'
                            refine ⟨xU, yU, rfl, rfl, ?_, ?_, ?_⟩
                            · intro r hr
                              rcases List.mem_cons.1 hr with rfl | h'
                              · exact ⟨le_refl _, le_refl _⟩
                              · exact absurd h' (List.not_mem_nil r)
                            · exact ⟨_, List.mem_cons_self _ _, rfl⟩
                            · exact ⟨_, List.mem_cons_self _ _, rfl⟩
                          · subst hmx
                            subst hmy
                            refine ⟨min m₁ xU, min m₂ yU, rfl, rfl, ?_, ?_, ?_⟩
                            · intro r hr
                              rcases List.mem_cons.1 hr with rfl | h'
                              · exact ⟨min_le_right _ _, min_le_right _ _⟩
                              · exact ⟨le_trans (min_le_left _ _) ((hbound r h').1),
                                  le_trans (min_le_left _ _) ((hbound r h').2)⟩
                            · rcases le_total m₁ xU with hle | hle
                              · obtain ⟨r₀, hr₀, hx₀⟩ := hatt1
                                exact ⟨r₀, List.mem_cons_of_mem _ hr₀,
                                  by rw [hx₀, min_eq_left hle]⟩
                              · exact ⟨_, List.mem_cons_self _ _,
                                  (min_eq_right hle).symm⟩
                            · rcases le_total m₂ yU with hle | hle
                              · obtain ⟨r₀, hr₀, hy₀⟩ := hatt2
                                exact ⟨r₀, List.mem_cons_of_mem _ hr₀,
                                  by rw [hy₀, min_eq_left hle]⟩
                              · exact ⟨_, List.mem_cons_self _ _,
                                  (min_eq_right hle).symm⟩

theorem secondPass_eq_map (mx my : ℚ) :
    ∀ (raws : List RawRec) (acc : List (String × GeoEntry)),
      (∀ r ∈ raws, ∀ p ∈ acc, p.1 ≠ r.keyId) →
      (raws.map RawRec.keyId).Nodup →
      List.foldl (fun reg r => dictInsert reg r.keyId (entryOf mx my r)) acc raws =
        acc ++ raws.map (fun r => (r.keyId, entryOf mx my r)) := by
  intro raws
  induction raws with
  | nil => intro acc _ _; simp
  | cons r rs ih =>
      intro acc hdisj hnodup
      simp only [List.foldl_cons]
      have hnotin : acc.any (fun p => p.1 == r.keyId) = false := by
        rw [List.any_eq_false]
        intro p hp
        simpa using hdisj r (List.mem_cons_self _ _) p hp
      have hins : dictInsert acc r.keyId (entryOf mx my r) =
          acc ++ [(r.keyId, entryOf mx my r)] := by
        simp [dictInsert, hnotin]
      simp only [List.map_cons, List.nodup_cons] at hnodup
      rw [hins, ih (acc ++ [(r.keyId, entryOf mx my r)]) ?_ hnodup.2]
      · simp
      · intro r' hr' p hp
        rcases List.mem_append.1 hp with hpa | hpx
        · exact hdisj r' (List.mem_cons_of_mem _ hr') p hpa
        · simp only [List.mem_singleton] at hpx
          subst hpx
          intro hcontra
          have hck : r.keyId = r'.keyId := hcontra
          refine hnodup.1 ?_
          rw [hck]
          exact List.mem_map_of_mem RawRec.keyId hr'

/-- C1 (amended): when `parse_key_layout` succeeds on a nonempty input whose
records carry distinct key ids and **no record is skipped** for a missing
rect, the resulting registry satisfies `min left_u = 0` and
`min top_u = 0`.  The skip proviso is necessary: skipped records still
contribute their coordinates to the subtracted minimum (see the
counterexample), so the claim as stated — invariant regardless of skips —
fails. -/
theorem parse_key_layout_min_zero (elems : List RawKeyElem)
    (registry : List (String × GeoEntry))
    (h : parse_key_layout elems = Except.ok registry)
    (hrect : ∀ e ∈ elems, e.rect ≠ none)
    (hnodup : (elems.map RawKeyElem.keyId).Nodup)
    (hne : elems ≠ []) :
    (registry.map (fun p => p.2.left_u)).min? = some 0 ∧
      (registry.map (fun p => p.2.top_u)).min? = some 0 := by
  simp only [parse_key_layout] at h
  cases hfp : firstPass elems with
  | error err => simp [hfp] at h
  | ok t =>
      obtain ⟨raws, mx, my⟩ := t
      simp only [hfp, Except.ok.injEq] at h
      subst h
      obtain ⟨hkeys, hmin⟩ := firstPass_no_skip elems raws mx my hrect hfp
      have hraws_ne : raws ≠ [] := by
        intro hnil
        subst hnil
        cases elems with
        | nil => exact hne rfl
        | cons a b => simp at hkeys
      rcases hmin with hnil | ⟨m₁, m₂, hmx, hmy, hbound, ⟨r₁, hr₁, hx₁⟩, ⟨r₂, hr₂, hy₂⟩⟩
      · exact absurd hnil hraws_ne
      subst hmx
      subst hmy
      have hnodup_r : (raws.map RawRec.keyId).Nodup := by
        rw [hkeys]
        exact hnodup
      have hreg : secondPass ((some m₁).getD 0) ((some m₂).getD 0) raws =
          raws.map (fun r => (r.keyId, entryOf m₁ m₂ r)) := by
        simpa using secondPass_eq_map m₁ m₂ raws [] (by simp) hnodup_r
      rw [hreg]
      constructor
      · apply rat_min?_eq_some_zero
        · refine List.mem_map.2 ⟨(r₁.keyId, entryOf m₁ m₂ r₁),
            List.mem_map_of_mem _ hr₁, ?_⟩
          simp only [entryOf]
          rw [hx₁, sub_self, round4_zero]
        · intro b hb
          obtain ⟨p, hp, rfl⟩ := List.mem_map.1 hb
          obtain ⟨r, hr, rfl⟩ := List.mem_map.1 hp
          simp only [entryOf]
          exact round4_nonneg _ (sub_nonneg.2 ((hbound r hr).1))
      · apply rat_min?_eq_some_zero
        · refine List.mem_map.2 ⟨(r₂.keyId, entryOf m₁ m₂ r₂),
            List.mem_map_of_mem _ hr₂, ?_⟩
          simp only [entryOf]
          rw [hy₂, sub_self, round4_zero]
        · intro b hb
          obtain ⟨p, hp, rfl⟩ := List.mem_map.1 hb
          obtain ⟨r, hr, rfl⟩ := List.mem_map.1 hp
          simp only [entryOf]
          exact round4_nonneg _ (sub_nonneg.2 ((hbound r hr).2))

unseal Rat.mul Rat.add Rat.sub Rat.inv in
/-- C1 counterexample: a skipped record (no nested rect) at `(0, 0)` still
sets `min_x = min_y = 0`, so the surviving key at `(5, 5)` keeps
`left_u = top_u = 5` and the registry minimum is `5`, not `0`. -/
theorem parse_key_layout_min_counterexample :
    parse_key_layout
        [⟨"K1", some "0", some "0", none, none⟩,
         ⟨"K2", some "5", some "5", none, some ("19.05", "19.05")⟩] =
      Except.ok [("K2", ⟨none, 5, 5, 1, 1, 5, 5, 6, 6⟩)] ∧
      (([("K2", (⟨none, 5, 5, 1, 1, 5, 5, 6, 6⟩ : GeoEntry))].map
          (fun p => p.2.left_u)).min? = some 5) ∧
      (([("K2", (⟨none, 5, 5, 1, 1, 5, 5, 6, 6⟩ : GeoEntry))].map
          (fun p => p.2.top_u)).min? = some 5) ∧
      (5 : ℚ) ≠ 0 := by
  decide

unseal Rat.mul Rat.add Rat.sub Rat.inv in
theorem parse_key_layout_min_zero_witness :
    (([("K1", (⟨none, 0, 0, 1, 1, 0, 0, 1, 1⟩ : GeoEntry))].map
        (fun p => p.2.left_u)).min? = some 0) ∧
      (([("K1", (⟨none, 0, 0, 1, 1, 0, 0, 1, 1⟩ : GeoEntry))].map
        (fun p => p.2.top_u)).min? = some 0) :=
  parse_key_layout_min_zero
    [⟨"K1", some "0", some "0", none, some ("19.05", "19.05")⟩]
    [("K1", ⟨none, 0, 0, 1, 1, 0, 0, 1, 1⟩)]
    (by decide) (by decide) (by decide) (by simp)

end Img2Caps
